import Mathlib

/-!
Verification of the solver base class (seisflows/solver/base.py) against its
natural-language specification.  Each Python operation that the claims touch is
embedded shallowly: pure data manipulation becomes a Lean function over lists,
filesystem and external-tool effects become explicit action lists, and fallible
paths return `Except`.  Binary array contents are modelled as `List Int`; the
structural claims under scrutiny never depend on the numeric type.
-/

namespace Seisflows

/-- Decidable equality on `Except`, used to evaluate embedded operations on
concrete inputs. -/
instance {ε α : Type} [DecidableEq ε] [DecidableEq α] : DecidableEq (Except ε α) :=
  fun x y =>
    match x, y with
    | .ok a, .ok b => decidable_of_iff (a = b) (by simp)
    | .error a, .error b => decidable_of_iff (a = b) (by simp)
    | .ok _, .error _ => isFalse (by simp)
    | .error _, .ok _ => isFalse (by simp)

/-- Arr models one per-processor binary array of numeric values. -/
abbrev Arr := List Int

/-- PartitionedModel models the Python dictionary mapping each material
parameter name to its list of per-processor arrays, kept as an association
list whose keys follow `self.parameters` order. -/
abbrev PartitionedModel := List (String × List Arr)

/-- lookupModel embeds the dictionary access `model[key]`; an absent key
yields `[]` (the claims only use it under well-formedness of the keys). -/
def lookupModel (m : PartitionedModel) (key : String) : List Arr :=
  match m.find? (fun p => p.1 == key) with
  | some p => p.2
  | none => []

/-- merge embeds `base.merge`: `for key in self.parameters: for iproc in
range(PAR.NPROC): v = np.append(v, model[key][iproc])`.  Indexing is modelled
with `getD`, hit only in range under the claims' hypotheses. -/
def merge (params : List String) (nproc : Nat) (m : PartitionedModel) : Arr :=
  (params.map (fun key =>
    ((List.range nproc).map (fun i => (lookupModel m key).getD i [])).flatten)).flatten

/-- Modelled from the spec: `splitvec` is imported from seisflows.seistools.io,
which is not under src/.  Per the spec's FlatVector ordering (concatenation per
parameter in ParameterSet order, per processor 0..P-1), the arrays of parameter
index `idim` are the chunks of `npts` values starting at offsets
`(idim*nproc + i)*npts` for `i = 0..nproc-1`. -/
def splitvec (v : Arr) (nproc npts idim : Nat) : List Arr :=
  (List.range nproc).map (fun i => (v.drop ((idim * nproc + i) * npts)).take npts)

/-- split embeds `base.split`: `npts = len(v)/(nproc*ndim)` is Python 2 integer
floor division (both operands are ints), and `model[key] = splitvec(v, nproc,
npts, idim)` for `idim, key in enumerate(self.parameters)`.  No error path
exists in the source: the division floors and the slices of `splitvec` never
raise. -/
def split (params : List String) (nproc : Nat) (v : Arr) : PartitionedModel :=
  let ndim := params.length
  let npts := v.length / (nproc * ndim)
  params.enum.map (fun p => (p.2, splitvec v nproc npts p.1))

/-- totalPoints counts the values held by a PartitionedModel across all
parameters and processors. -/
def totalPoints (m : PartitionedModel) : Nat :=
  (m.map (fun p => (p.2.map List.length).sum)).sum

/-! Source registry: `base.getnames`, `base.getname` (lines 519-540). -/

/-- splitChars embeds Python `str.split(sep)` over the character list: splits
on every occurrence of `sep`; adjacent separators yield empty fields. -/
def splitChars (sep : Char) : List Char → List (List Char)
  | [] => [[]]
  | c :: cs =>
    let rest := splitChars sep cs
    if c = sep then [] :: rest
    else
      match rest with
      | [] => [[c]]
      | r :: rs => (c :: r) :: rs

/-- pySplit embeds Python `s.split(sep)` for a one-character separator. -/
def pySplit (s : String) (sep : Char) : List String :=
  (splitChars sep s.toList).map List.asString

/-- basename embeds `unix.basename`: the component after the last slash. -/
def basename (path : String) : String :=
  ((splitChars '/' path.toList).getLastD []).asString

/-- extractName embeds `unix.basename(path).split('_')[-1]`: the token after
the last underscore of the path's basename. -/
def extractName (path : String) : String :=
  (pySplit (basename path) '_').getLastD ""

/-- lexLe is bytewise lexicographic string order, the order Python 2 uses to
compare `str` values in `list.sort()`. -/
def lexLe : List Char → List Char → Bool
  | [], _ => true
  | _ :: _, [] => false
  | a :: as, b :: bs => if a = b then lexLe as bs else decide (a.toNat < b.toNat)

/-- strLe lifts lexLe to String. -/
def strLe (a b : String) : Prop := lexLe a.toList b.toList = true

instance : DecidableRel strLe := fun a b => by unfold strLe; infer_instance

/-- SourceError is the failure observed in `base.getnames` on an empty glob:
line 535 reads the name `MsgSourcInputError`, a misspelling of the imported
`MsgSourceInputError` (line 18), so Python raises NameError before reaching
`sys.exit(-1)`. -/
inductive SourceError where
  | nameErrorMisspelledMsg
deriving DecidableEq

/-- getnames embeds `base.getnames` on the glob listing of
`PATH.SPECFEM_DATA + '/' + source_prefix + '_*'`: empty listing hits the
misspelled-message NameError; otherwise each match contributes
`unix.basename(path).split('_')[-1]` and the names are sorted.  Python's
`list.sort()` is embedded as insertion sort over the same total order, which
produces the identical (unique) sorted result. -/
def getnames (globstar : List String) : Except SourceError (List String) :=
  if globstar.isEmpty then .error .nameErrorMisspelledMsg
  else .ok (List.insertionSort strLe (globstar.map extractName))

/-- getname embeds the `getname` property: `self.names[system.getnode()]`. -/
def getname (globstar : List String) (node : Nat) : Except SourceError String :=
  (getnames globstar).map (fun names => names.getD node "")

/-! Model output: `base.save` (lines 251-278). -/

/-- SaveAction records the filesystem effects of `base.save`: `unix.mkdir`,
`savebin(model[key][iproc], path, iproc, name)` and
`copybin(src, dst, iproc, name)`. -/
inductive SaveAction where
  | mkdirA (path : String)
  | savebin (arr : Arr) (path : String) (iproc : Nat) (fname : String)
  | copybin (src dst : String) (iproc : Nat) (fname : String)
deriving DecidableEq

/-- saveProc embeds one iteration of the `for iproc in range(PAR.NPROC)` loop
of `base.save`: vp and vs are written from the in-memory model when in
`self.parameters`, else copied from `PATH.OUTPUT + '/' + 'model_init'` under
the name `pre ++ key ++ suf`; rho is written under `pre ++ "rho" ++ suf` when
in `self.parameters`, else copied under the bare name `"rho"` (line 278). -/
def saveProc (params : List String) (outputPath path : String)
    (m : PartitionedModel) (pre suf : String) (iproc : Nat) : List SaveAction :=
  (["vp", "vs"].map (fun key =>
    if key ∈ params then
      SaveAction.savebin ((lookupModel m key).getD iproc []) path iproc (pre ++ key ++ suf)
    else
      SaveAction.copybin (outputPath ++ "/" ++ "model_init") path iproc (pre ++ key ++ suf)))
  ++ (if "rho" ∈ params then
        [SaveAction.savebin ((lookupModel m "rho").getD iproc []) path iproc (pre ++ "rho" ++ suf)]
      else
        [SaveAction.copybin (outputPath ++ "/" ++ "model_init") path iproc "rho"])

/-- save embeds `base.save`: mkdir, then the per-processor loop. -/
def save (params : List String) (nproc : Nat) (outputPath path : String)
    (m : PartitionedModel) (pre suf : String) : List SaveAction :=
  SaveAction.mkdirA path ::
    ((List.range nproc).map (saveProc params outputPath path m pre suf)).flatten

/-! Kernel postprocessing: `base.clip` (lines 357-384). -/

/-- FloatV models the only float distinctions `base.clip` makes: the default
bounds are `-np.inf` / `np.inf` and the guard tests exact equality with
them, so a float bound is negative infinity, positive infinity, or finite. -/
inductive FloatV where
  | negInf
  | posInf
  | finite (q : Int)
deriving DecidableEq

/-- ClipError is the `assert exists(path)` failure at the top of clip. -/
inductive ClipError where
  | assertPathMissing
deriving DecidableEq

/-- ClipAction records clip's effects: one `xclip_sem` run per parameter, the
`_noclip` sibling directory creation, the relocation of each parameter's
input kernel files, and the `unix.rename('_clip', '', ...)` strip. -/
inductive ClipAction where
  | runClipTool (minval maxval : FloatV) (kernelName path : String)
  | mkdirA (path : String)
  | mvKernels (kernelName src dst : String)
  | renameStrip (tag path : String)
deriving DecidableEq

/-- clip embeds `base.clip`: assert the path exists; return immediately when
`minval == -np.inf or maxval == np.inf` (line 363); otherwise run the tool per
parameter, relocate inputs to the `_noclip` sibling and strip `_clip`. -/
def clip (params : List String) (pathExists : Bool) (path : String)
    (minval maxval : FloatV) : Except ClipError (List ClipAction) :=
  if ¬ pathExists then .error .assertPathMissing
  else if minval = .negInf ∨ maxval = .posInf then .ok []
  else .ok ((params.map (fun name =>
        ClipAction.runClipTool minval maxval (name ++ "_kernel") path))
      ++ [ClipAction.mkdirA (path ++ "_noclip")]
      ++ (params.map (fun name => ClipAction.mvKernels name path (path ++ "_noclip")))
      ++ [ClipAction.renameStrip "_clip" path])

/-- isRunClip tests for the external-tool invocation action. -/
def isRunClip : ClipAction → Bool
  | .runClipTool _ _ _ _ => true
  | _ => false

/-! Setup: `base.setup` (lines 115-144). -/

/-- SetupError is the configuration failure of setup. -/
inductive SetupError where
  | missingRequiredInput
deriving DecidableEq

/-- SetupAction records the steps of `base.setup` in order. -/
inductive SetupAction where
  | rmSourceDir (source : String)
  | initSolverDirs
  | copyObservedData (archive source : String)
  | generateDataA (modelPath : String)
  | generateMeshA (modelPath : String)
  | initAdjointTraces
  | initIoMachineryA
deriving DecidableEq

/-- Modelled from the spec: the path table `PATH` is a process-wide
configuration object (seisflows.tools.config.ParameterObj, not under src/).
An optional path that is not configured reads as a falsy None, and evaluating
a required-but-unconfigured path raises the configuration error
(`MissingRequiredInput`), fatal at setup. -/
def getPath (p : Option String) : Except SetupError String :=
  match p with
  | some s => .ok s
  | none => .error .missingRequiredInput

/-- setup embeds `base.setup`: remove the working directory; `if PATH.DATA:`
initialize the solver directories and copy the observed traces from the
archive, else run `generate_data` against `PATH.MODEL_TRUE`; then
`generate_mesh` against `PATH.MODEL_INIT`, initialize the adjoint traces and
the io machinery.  Unconfigured required paths fail through `getPath`. -/
def setup (dataPath modelTrue modelInit : Option String) (source : String) :
    Except SetupError (List SetupAction) :=
  match dataPath with
  | some d =>
    match getPath modelInit with
    | .ok mi =>
        .ok ([SetupAction.rmSourceDir source]
          ++ [SetupAction.initSolverDirs, SetupAction.copyObservedData d source]
          ++ [SetupAction.generateMeshA mi, SetupAction.initAdjointTraces,
              SetupAction.initIoMachineryA])
    | .error e => .error e
  | none =>
    match getPath modelTrue with
    | .ok mt =>
      match getPath modelInit with
      | .ok mi =>
          .ok ([SetupAction.rmSourceDir source]
            ++ [SetupAction.generateDataA mt]
            ++ [SetupAction.generateMeshA mi, SetupAction.initAdjointTraces,
                SetupAction.initIoMachineryA])
      | .error e => .error e
    | .error e => .error e

/-! Optimizer seeding: `base.initialize_io_machinery` (lines 489-499). -/

/-- IoError is the `assert` failure inside the worker-0 branch. -/
inductive IoError where
  | assertFailed
deriving DecidableEq

/-- IoAction records the io-machinery effects: loading the initial model and
writing the optimizer seed `PATH.OPTIMIZE + '/' + 'm_new'`. -/
inductive IoAction where
  | loadModelInit
  | saveMNew (v : Arr)
deriving DecidableEq

/-- initIoMachinery embeds `base.initialize_io_machinery`: only node 0 with
`PAR.OPTIMIZE` set asserts `PATH.OPTIMIZE` and `exists(PATH.MODEL_INIT)`,
loads the initial model, and writes the merged vector to `m_new` only when
that file does not already exist. -/
def initIoMachinery (node : Nat) (optimize pathOptSet modelInitExists mNewExists : Bool)
    (mergedInit : Arr) : Except IoError (List IoAction) :=
  if node = 0 then
    if optimize then
      if pathOptSet = false then .error .assertFailed
      else if modelInitExists = false then .error .assertFailed
      else if mNewExists = false then .ok [.loadModelInit, .saveMNew mergedInit]
      else .ok [.loadModelInit]
    else .ok []
  else .ok []

/-! Model import: `base.load` (lines 228-248) and `base.import_model`
(lines 389-396). -/

/-- LoadAction records the io of a model import: one per-processor database
read (`loadbypar`), the optional min/max diagnostic report
(`minmax.write`, emitted only when `verbose`), and the save into the
working directory's model databases. -/
inductive LoadAction where
  | readPartition (path : String) (iproc : Nat)
  | writeMinmax (path : String)
  | saveModelDb (dst : String)
deriving DecidableEq

/-- load embeds `base.load`: reads each processor's database files in order
and, when `verbose`, writes the min/max statistics report. -/
def load (nproc : Nat) (path : String) (verbose : Bool) : List LoadAction :=
  ((List.range nproc).map (fun i => LoadAction.readPartition path i))
    ++ (if verbose then [LoadAction.writeMinmax path] else [])

/-- import embeds `base.import_model`: `save(dst, load(src, verbose=True))`
for node 0 and `save(dst, load(src))` otherwise, with
`src = join(path, 'model')` and `dst = self.model_databases`. -/
def import_model (node nproc : Nat) (path dbPath : String) : List LoadAction :=
  if node = 0 then
    load nproc (path ++ "/" ++ "model") true ++ [LoadAction.saveModelDb dbPath]
  else
    load nproc (path ++ "/" ++ "model") false ++ [LoadAction.saveModelDb dbPath]

/-- isMinmaxWrite tests for the diagnostic-report action. -/
def isMinmaxWrite : LoadAction → Bool
  | .writeMinmax _ => true
  | _ => false

end Seisflows

namespace Seisflows

/-- Reading index `i` with default over `List.range L.length` reproduces `L`. -/
theorem range_map_getD {α : Type} (d : α) (L : List α) :
    (List.range L.length).map (fun i => L.getD i d) = L := by
  induction L with
  | nil => simp
  | cons a L ih =>
    rw [List.length_cons, List.range_succ_eq_map, List.map_cons, List.map_map]
    congr 1

/-- Uniform chunk lengths determine the flattened length. -/
theorem length_flatten_uniform {α : Type} (L : List (List α)) (n : Nat)
    (h : ∀ a ∈ L, a.length = n) : L.flatten.length = L.length * n := by
  induction L with
  | nil => simp
  | cons a L ih =>
    have ha : a.length = n := h a (List.mem_cons_self a L)
    have hL : ∀ b ∈ L, b.length = n := fun b hb => h b (List.mem_cons_of_mem a hb)
    simp [List.flatten_cons, ha, ih hL, Nat.succ_mul, Nat.add_comm]

/-- Extracting the `j`-th chunk of size `n` from the flattening of a list of
uniformly sized chunks recovers the `j`-th chunk. -/
theorem take_drop_flatten {α : Type} (C : List (List α)) (n : Nat) :
    ∀ j, (∀ a ∈ C, a.length = n) → j < C.length →
      ((C.flatten.drop (j * n)).take n) = C.getD j [] := by
  induction C with
  | nil => intro j _ hj; simp at hj
  | cons a C ih =>
    intro j hlen hj
    have ha : a.length = n := hlen a (List.mem_cons_self a C)
    have hC : ∀ b ∈ C, b.length = n := fun b hb => hlen b (List.mem_cons_of_mem a hb)
    cases j with
    | zero =>
      simp only [Nat.zero_mul, List.drop_zero, List.flatten_cons, List.getD_cons_zero]
      exact List.take_left' ha
    | succ j =>
      have hdrop : (a ++ C.flatten).drop ((j + 1) * n) = C.flatten.drop (j * n) := by
        have h1 : (a ++ C.flatten).drop n = C.flatten := List.drop_left' ha
        have h2 : (j + 1) * n = n + j * n := by
          rw [Nat.succ_mul, Nat.add_comm]
        rw [h2, ← List.drop_drop, h1]
      simp only [List.flatten_cons, hdrop, List.getD_cons_succ]
      exact ih j hC (by simpa using hj)

/-- Reading position `idim*n + i` in the flattening of uniformly sized blocks
reads position `i` of block `idim`. -/
theorem getD_flatten_block {α : Type} (dflt : α) (B : List (List α)) (n : Nat) :
    ∀ idim i, (∀ b ∈ B, b.length = n) → i < n → idim < B.length →
      B.flatten.getD (idim * n + i) dflt = (B.getD idim []).getD i dflt := by
  induction B with
  | nil => intro idim i _ _ hd; simp at hd
  | cons b B ih =>
    intro idim i hlen hi hd
    have hb : b.length = n := hlen b (List.mem_cons_self b B)
    have hB : ∀ c ∈ B, c.length = n := fun c hc => hlen c (List.mem_cons_of_mem b hc)
    cases idim with
    | zero =>
      simp only [Nat.zero_mul, Nat.zero_add, List.flatten_cons, List.getD_cons_zero]
      exact List.getD_append b B.flatten dflt i (by omega)
    | succ idim =>
      have hge : b.length ≤ (idim + 1) * n + i := by
        rw [hb, Nat.succ_mul]; omega
      have hsub : (idim + 1) * n + i - b.length = idim * n + i := by
        rw [hb, Nat.succ_mul]; omega
      simp only [List.flatten_cons, List.getD_cons_succ]
      rw [List.getD_append_right b B.flatten dflt _ hge, hsub]
      exact ih idim i hB hi (by simpa using hd)

/-- With nodup keys, dictionary lookup of a stored pair's key returns its
stored value. -/
theorem lookup_of_nodup (m : PartitionedModel) (h : (m.map Prod.fst).Nodup) :
    ∀ p ∈ m, lookupModel m p.1 = p.2 := by
  induction m with
  | nil => intro p hp; simp at hp
  | cons q m ih =>
    intro p hp
    rcases List.mem_cons.mp hp with hq | hmem
    · subst hq
      simp [lookupModel]
    · have hne : q.1 ≠ p.1 := by
        intro hcontra
        have : q.1 ∈ m.map Prod.fst := by
          rw [hcontra]
          exact List.mem_map_of_mem Prod.fst hmem
        simp only [List.map_cons, List.nodup_cons] at h
        exact h.1 this
      have hfalse : (q.1 == p.1) = false := by
        simp [hne]
      have hnodup : (m.map Prod.fst).Nodup := by
        simp only [List.map_cons, List.nodup_cons] at h
        exact h.2
      simp only [lookupModel, List.find?_cons, hfalse]
      exact ih hnodup p hmem

/-- Under uniform per-processor array counts and nodup keys, merge is the
flattening of the per-parameter flattenings in storage order. -/
theorem merge_eq_flatten (m : PartitionedModel) (nproc : Nat)
    (h : (m.map Prod.fst).Nodup) (hlen : ∀ p ∈ m, p.2.length = nproc) :
    merge (m.map Prod.fst) nproc m = ((m.map Prod.snd).map List.flatten).flatten := by
  unfold merge
  rw [List.map_map, List.map_map]
  congr 1
  apply List.map_congr_left
  intro p hp
  simp only [Function.comp]
  rw [lookup_of_nodup m h p hp, ← hlen p hp, range_map_getD]

end Seisflows

namespace Seisflows

/-- Claim C1: for every PartitionedModel in which every processor's array has
the same length for every parameter of the active ParameterSet (and the keys
are exactly those parameters), `split (merge m) = m`: merge concatenates per
parameter in ParameterSet order and per processor 0..NPROC-1, and split
reconstructs the dictionary from the uniform per-processor point count. -/
theorem split_merge_id (params : List String) (nproc npts : Nat) (m : PartitionedModel)
    (hkeys : m.map Prod.fst = params) (hnd : params.Nodup)
    (hproc : ∀ p ∈ m, p.2.length = nproc)
    (hpts : ∀ p ∈ m, ∀ a ∈ p.2, a.length = npts) :
    split params nproc (merge params nproc m) = m := by
  subst hkeys
  set A : List (List Arr) := m.map Prod.snd with hA
  have hAlen : ∀ b ∈ A, b.length = nproc := by
    intro b hb
    rcases List.mem_map.mp hb with ⟨p, hp, rfl⟩
    exact hproc p hp
  have hflatlen : ∀ a ∈ A.flatten, a.length = npts := by
    intro a ha
    rcases List.mem_flatten.mp ha with ⟨b, hb, hab⟩
    rcases List.mem_map.mp hb with ⟨p, hp, rfl⟩
    exact hpts p hp a hab
  have hALen : A.length = m.length := by simp [hA]
  have hAflat : A.flatten.length = m.length * nproc := by
    rw [length_flatten_uniform A nproc hAlen, hALen]
  have hv : merge (m.map Prod.fst) nproc m = A.flatten.flatten := by
    rw [merge_eq_flatten m nproc (by assumption) hproc, List.flatten_flatten]
  have hvlen : (merge (m.map Prod.fst) nproc m).length = m.length * nproc * npts := by
    rw [hv, length_flatten_uniform A.flatten npts hflatlen, hAflat]
  have hndim : (m.map Prod.fst).length = m.length := by simp
  by_cases h0 : nproc * m.length = 0
  · have hvnil : merge (m.map Prod.fst) nproc m = [] := by
      apply List.eq_nil_of_length_eq_zero
      rw [hvlen]
      rcases Nat.mul_eq_zero.mp h0 with h | h
      · simp [h]
      · simp [h]
    cases m with
    | nil => simp [split]
    | cons q t =>
      have hmlen : (q :: t).length ≠ 0 := by simp
      have hnp : nproc = 0 := by
        rcases Nat.mul_eq_zero.mp h0 with h | h
        · exact h
        · exact absurd h hmlen
      subst hnp
      rw [hvnil]
      unfold split
      apply List.ext_getElem
      · simp
      · intro idim h1 h2
        have hen : idim < ((q :: t).map Prod.fst).enum.length := by
          simpa [List.enum_length] using h2
        rw [List.getElem_map, List.getElem_enum]
        have hnil2 : (q :: t)[idim].2 = [] := by
          have := hproc ((q :: t)[idim]) (List.getElem_mem h2)
          exact List.eq_nil_of_length_eq_zero this
        have hmp : idim < ((q :: t).map Prod.fst).length := by simpa using h2
        have hkey : ((q :: t).map Prod.fst)[idim] = (q :: t)[idim].1 := by
          rw [List.getElem_map]
        exact Prod.ext hkey hnil2.symm
  · have hnpts : (merge (m.map Prod.fst) nproc m).length / (nproc * m.length) = npts := by
      rw [hvlen, Nat.mul_comm m.length nproc,
        Nat.mul_div_cancel_left npts (Nat.pos_of_ne_zero h0)]
    unfold split
    simp only [hndim, hnpts]
    apply List.ext_getElem
    · simp
    · intro idim h1 h2
      have hidim : idim < m.length := h2
      have hen : idim < (m.map Prod.fst).enum.length := by
        simpa [List.enum_length] using hidim
      rw [List.getElem_map, List.getElem_enum]
      have hmp : idim < (m.map Prod.fst).length := by simpa using hidim
      have hkey : (m.map Prod.fst)[idim] = m[idim].1 := by
        rw [List.getElem_map]
      have hval : splitvec (merge (m.map Prod.fst) nproc m) nproc npts idim = m[idim].2 := by
        unfold splitvec
        have hstep : ∀ i ∈ List.range nproc,
            ((merge (m.map Prod.fst) nproc m).drop ((idim * nproc + i) * npts)).take npts
              = (m[idim].2).getD i [] := by
          intro i hi
          have hilt : i < nproc := List.mem_range.mp hi
          have hjlt : idim * nproc + i < A.flatten.length := by
            rw [hAflat]
            calc idim * nproc + i < idim * nproc + nproc := by omega
              _ = (idim + 1) * nproc := by rw [Nat.succ_mul]
              _ ≤ m.length * nproc := Nat.mul_le_mul_right nproc (by omega)
          rw [hv, take_drop_flatten A.flatten npts (idim * nproc + i) hflatlen hjlt]
          rw [getD_flatten_block ([] : Arr) A nproc idim i hAlen hilt (by rw [hALen]; exact hidim)]
          have hgA : A.getD idim [] = m[idim].2 := by
            rw [List.getD_eq_getElem A [] (by rw [hALen]; exact hidim)]
            simp [hA, List.getElem_map]
          rw [hgA]
        rw [List.map_congr_left hstep]
        have hlen2 : m[idim].2.length = nproc := hproc m[idim] (List.getElem_mem h2)
        rw [← hlen2]
        exact range_map_getD ([] : Arr) (m[idim].2)
      show ((m.map Prod.fst)[idim],
        splitvec (merge (m.map Prod.fst) nproc m) nproc npts idim) = m[idim]
      rw [hkey, hval]

end Seisflows

namespace Seisflows

/-- Sum of a constant-valued map. -/
theorem sum_map_const {α : Type} (l : List α) (k : Nat) :
    (l.map (fun _ => k)).sum = l.length * k := by
  induction l with
  | nil => simp
  | cons a l ih => simp [ih, Nat.succ_mul, Nat.add_comm]

/-- Each in-bounds splitvec chunk has full length `npts`, so parameter
`idim` contributes `nproc * npts` points. -/
theorem splitvec_length_sum (v : Arr) (nproc npts idim : Nat)
    (h : (idim + 1) * nproc * npts ≤ v.length) :
    ((splitvec v nproc npts idim).map List.length).sum = nproc * npts := by
  unfold splitvec
  rw [List.map_map]
  have hconst : ∀ i ∈ List.range nproc,
      (List.length ∘ fun i => (v.drop ((idim * nproc + i) * npts)).take npts) i = npts := by
    intro i hi
    have hilt : i < nproc := List.mem_range.mp hi
    simp only [Function.comp, List.length_take, List.length_drop]
    have hle : (idim * nproc + i) * npts + npts ≤ v.length := by
      calc (idim * nproc + i) * npts + npts = (idim * nproc + i + 1) * npts := by ring
        _ ≤ ((idim + 1) * nproc) * npts := by
            apply Nat.mul_le_mul_right
            have h2 : idim * nproc + i + 1 ≤ idim * nproc + nproc := by omega
            calc idim * nproc + i + 1 ≤ idim * nproc + nproc := h2
              _ = (idim + 1) * nproc := by rw [Nat.succ_mul]
        _ ≤ v.length := by
            have : (idim + 1) * nproc * npts ≤ v.length := h
            calc (idim + 1) * nproc * npts = (idim + 1) * nproc * npts := rfl
              _ ≤ v.length := this
    omega
  rw [List.map_congr_left hconst, sum_map_const, List.length_range]

/-- The model produced by split always holds exactly
`ndim * nproc * (len v / (nproc * ndim))` points, the floor of the division:
no error is raised and any remainder of the vector is dropped. -/
theorem totalPoints_split (params : List String) (nproc : Nat) (v : Arr) :
    totalPoints (split params nproc v)
      = params.length * (nproc * (v.length / (nproc * params.length))) := by
  unfold totalPoints split
  rw [List.map_map]
  simp only [Function.comp_def]
  have hterm : ∀ q ∈ params.enum,
      ((splitvec v nproc (v.length / (nproc * params.length)) q.1).map List.length).sum
        = nproc * (v.length / (nproc * params.length)) := by
    intro q hq
    have hlt : q.1 < params.length := by
      have := List.mem_enum_iff_getElem?.mp hq
      have := List.getElem?_eq_some.mp this
      exact this.1
    apply splitvec_length_sum
    calc (q.1 + 1) * nproc * (v.length / (nproc * params.length))
        ≤ params.length * nproc * (v.length / (nproc * params.length)) := by
          apply Nat.mul_le_mul_right
          exact Nat.mul_le_mul_right nproc (by omega)
      _ = (v.length / (nproc * params.length)) * (nproc * params.length) := by ring
      _ ≤ v.length := Nat.div_mul_le_self v.length (nproc * params.length)
  rw [List.map_congr_left hterm, sum_map_const, List.enum_length]

/-- Claim C2, corrected: on a vector whose length is not divisible by
`NPROC * ndim`, split does not fail; the Python 2 integer division floors and
split silently returns a model holding strictly fewer points than the vector
supplies. -/
theorem split_truncates (params : List String) (nproc : Nat) (v : Arr)
    (h : ¬ (nproc * params.length ∣ v.length)) :
    totalPoints (split params nproc v)
        = nproc * params.length * (v.length / (nproc * params.length))
      ∧ totalPoints (split params nproc v) < v.length := by
  have heq : totalPoints (split params nproc v)
      = nproc * params.length * (v.length / (nproc * params.length)) := by
    rw [totalPoints_split]; ring
  refine ⟨heq, ?_⟩
  rw [heq]
  have h1 := Nat.div_add_mod v.length (nproc * params.length)
  have h2 : v.length % (nproc * params.length) ≠ 0 := by
    intro hz; exact h (Nat.dvd_of_mod_eq_zero hz)
  generalize hK : nproc * params.length = K at h1 h2 ⊢
  generalize hQ : v.length / K = Q at h1 ⊢
  generalize hR : v.length % K = R at h1 h2
  generalize hX : K * Q = X at h1 ⊢
  omega

/-- Counterexample to Claim C2 as stated: a 3-value vector with NPROC = 1
and two parameters (3 not divisible by 2) makes split return a 2-point model
with the last value dropped, instead of failing: the source has no error
path (floor division plus slicing). -/
theorem split_failfast_cx :
    split ["vp", "vs"] 1 [5, 6, 7] = [("vp", [[5]]), ("vs", [[6]])]
      ∧ totalPoints (split ["vp", "vs"] 1 [5, 6, 7]) = 2 := by
  constructor
  · decide
  · decide

end Seisflows

namespace Seisflows

/-- Witness for Claim C1 at a concrete two-parameter, two-processor model
with one point per processor. -/
theorem split_merge_id_witness :
    split ["vp", "vs"] 2 (merge ["vp", "vs"] 2 [("vp", [[1], [2]]), ("vs", [[3], [4]])])
      = [("vp", [[1], [2]]), ("vs", [[3], [4]])] :=
  split_merge_id ["vp", "vs"] 2 1 [("vp", [[1], [2]]), ("vs", [[3], [4]])]
    (by decide) (by decide) (by decide) (by decide)

/-- Witness for the corrected Claim C2 at the same concrete vector. -/
theorem split_truncates_witness :
    ¬ ((1 : Nat) * (["vp", "vs"] : List String).length ∣ ([5, 6, 7] : Arr).length)
      ∧ totalPoints (split ["vp", "vs"] 1 [5, 6, 7]) < ([5, 6, 7] : Arr).length :=
  ⟨by decide, (split_truncates ["vp", "vs"] 1 [5, 6, 7] (by decide)).2⟩

end Seisflows

namespace Seisflows

/-- Char is determined by its code point. -/
theorem char_toNat_inj {a b : Char} (h : a.toNat = b.toNat) : a = b :=
  Char.ext (UInt32.ext h)

/-- lexLe is total. -/
theorem lexLe_total : ∀ as bs : List Char, lexLe as bs = true ∨ lexLe bs as = true := by
  intro as
  induction as with
  | nil => intro bs; left; rfl
  | cons a as ih =>
    intro bs
    cases bs with
    | nil => right; rfl
    | cons b bs =>
      by_cases hab : a = b
      · subst hab
        rcases ih bs with h | h
        · left; simpa [lexLe] using h
        · right; simpa [lexLe] using h
      · have hne : a.toNat ≠ b.toNat := fun hn => hab (char_toNat_inj hn)
        have hba : b ≠ a := fun h => hab h.symm
        rcases Nat.lt_or_ge a.toNat b.toNat with h | h
        · left; simp [lexLe, hab, h]
        · right
          have hlt : b.toNat < a.toNat :=
            lt_of_le_of_ne h (fun h2 => hne h2.symm)
          simp [lexLe, hba, hlt]

/-- lexLe is transitive. -/
theorem lexLe_trans : ∀ as bs cs : List Char,
    lexLe as bs = true → lexLe bs cs = true → lexLe as cs = true := by
  intro as
  induction as with
  | nil => intro bs cs _ _; rfl
  | cons a as ih =>
    intro bs cs h1 h2
    cases bs with
    | nil => simp [lexLe] at h1
    | cons b bs =>
      cases cs with
      | nil => simp [lexLe] at h2
      | cons c cs =>
        by_cases hab : a = b
        · subst hab
          by_cases hbc : a = c
          · subst hbc
            simp only [lexLe, if_pos rfl] at h1 h2 ⊢
            exact ih bs cs h1 h2
          · simp only [lexLe, if_pos rfl] at h1
            simp only [lexLe, if_neg hbc] at h2 ⊢
            exact h2
        · by_cases hbc : b = c
          · subst hbc
            simp only [lexLe, if_neg hab] at h1 ⊢
            exact h1
          · simp only [lexLe, if_neg hab] at h1
            simp only [lexLe, if_neg hbc] at h2
            have h1' : a.toNat < b.toNat := of_decide_eq_true h1
            have h2' : b.toNat < c.toNat := of_decide_eq_true h2
            have hac : a ≠ c := by
              intro h
              subst h
              exact Nat.lt_irrefl _ (Nat.lt_trans h1' h2')
            simp only [lexLe, if_neg hac]
            exact decide_eq_true (Nat.lt_trans h1' h2')

instance : IsTrans String strLe :=
  ⟨fun a b c h1 h2 => lexLe_trans a.toList b.toList c.toList h1 h2⟩

instance : IsTotal String strLe :=
  ⟨fun a b => lexLe_total a.toList b.toList⟩

/-- Claim C3 (code bug evaluated): on an empty source-file listing,
`base.getnames` does terminate abnormally, but through the NameError raised by
the misspelled `MsgSourcInputError` (line 535; the import on line 18 is
`MsgSourceInputError`), not through the intended "no sources found" message
followed by `sys.exit(-1)`: the `print` raises before `sys.exit` runs. -/
theorem getnames_empty_name_error :
    getnames [] = Except.error SourceError.nameErrorMisspelledMsg := rfl

/-- Counterexample to Claim C4's example: files EVENT_B, EVENT_A, EVENT_C
yield `["A", "B", "C"]` (the token after the LAST underscore of each
basename, per `split('_')[-1]`), not `["EVENT_A", "EVENT_B", "EVENT_C"]`,
and worker 0 is assigned "A". -/
theorem getnames_trailing_token_cx :
    getnames ["EVENT_B", "EVENT_A", "EVENT_C"]
        ≠ Except.ok ["EVENT_A", "EVENT_B", "EVENT_C"]
      ∧ getnames ["EVENT_B", "EVENT_A", "EVENT_C"] = Except.ok ["A", "B", "C"]
      ∧ getname ["EVENT_B", "EVENT_A", "EVENT_C"] 0 = Except.ok "A" := by
  refine ⟨?_, ?_, ?_⟩ <;> decide

/-- Claim C4, corrected: for every non-empty listing, source resolution
extracts the token after the last underscore of each filename's basename,
sorts the tokens lexicographically, and assigns worker `i` the `i`-th token
of the sorted sequence. -/
theorem getnames_sorted_assignment (globstar : List String) (h : globstar ≠ []) :
    ∃ ns, getnames globstar = Except.ok ns
      ∧ ns.Sorted strLe
      ∧ ns.Perm (globstar.map extractName)
      ∧ ∀ node, node < ns.length →
          getname globstar node = Except.ok (ns.getD node "") := by
  cases globstar with
  | nil => exact absurd rfl h
  | cons g gs =>
    refine ⟨List.insertionSort strLe ((g :: gs).map extractName), rfl, ?_, ?_, ?_⟩
    · exact List.sorted_insertionSort strLe _
    · exact List.perm_insertionSort strLe _
    · intro node _
      rfl

/-- Witness for the corrected Claim C4 on a concrete two-file listing. -/
theorem getnames_sorted_assignment_witness :
    ∃ ns, getnames ["FORCESOLUTION_002", "FORCESOLUTION_001"] = Except.ok ns
      ∧ ns.Sorted strLe
      ∧ ns.Perm (["FORCESOLUTION_002", "FORCESOLUTION_001"].map extractName)
      ∧ ∀ node, node < ns.length →
          getname ["FORCESOLUTION_002", "FORCESOLUTION_001"] node
            = Except.ok (ns.getD node "") :=
  getnames_sorted_assignment ["FORCESOLUTION_002", "FORCESOLUTION_001"] (by decide)

end Seisflows

namespace Seisflows

/-- Any action of an in-range processor iteration appears in save. -/
theorem mem_save_of_mem_saveProc (params : List String) (nproc : Nat)
    (outputPath path : String) (m : PartitionedModel) (pre suf : String)
    (iproc : Nat) (h : iproc < nproc) (a : SaveAction)
    (ha : a ∈ saveProc params outputPath path m pre suf iproc) :
    a ∈ save params nproc outputPath path m pre suf := by
  unfold save
  apply List.mem_cons_of_mem
  apply List.mem_flatten.mpr
  exact ⟨saveProc params outputPath path m pre suf iproc,
    List.mem_map_of_mem _ (List.mem_range.mpr h), ha⟩

/-- Every save action is the mkdir or comes from some processor
iteration. -/
theorem save_mem_cases (params : List String) (nproc : Nat)
    (outputPath path : String) (m : PartitionedModel) (pre suf : String)
    (a : SaveAction) (ha : a ∈ save params nproc outputPath path m pre suf) :
    a = SaveAction.mkdirA path
      ∨ ∃ j, j < nproc ∧ a ∈ saveProc params outputPath path m pre suf j := by
  unfold save at ha
  rcases List.mem_cons.mp ha with h1 | h2
  · exact Or.inl h1
  · right
    rcases List.mem_flatten.mp h2 with ⟨l, hl, hal⟩
    rcases List.mem_map.mp hl with ⟨j, hj, rfl⟩
    exact ⟨j, List.mem_range.mp hj, hal⟩

/-- Claim C5: with an active ParameterSet of {vp} only and constant
density, save emits for every processor a write of vp from the in-memory
model, copies the vs file and the rho file from the reference
`model_init` location, and every write it emits is a vp write. -/
theorem save_acoustic_copies (nproc : Nat) (outputPath path : String)
    (m : PartitionedModel) (pre suf : String) (iproc : Nat) (h : iproc < nproc) :
    SaveAction.savebin ((lookupModel m "vp").getD iproc []) path iproc (pre ++ "vp" ++ suf)
        ∈ save ["vp"] nproc outputPath path m pre suf
      ∧ SaveAction.copybin (outputPath ++ "/" ++ "model_init") path iproc (pre ++ "vs" ++ suf)
        ∈ save ["vp"] nproc outputPath path m pre suf
      ∧ SaveAction.copybin (outputPath ++ "/" ++ "model_init") path iproc "rho"
        ∈ save ["vp"] nproc outputPath path m pre suf
      ∧ (∀ arr p i n, SaveAction.savebin arr p i n ∈ save ["vp"] nproc outputPath path m pre suf →
          n = pre ++ "vp" ++ suf) := by
  refine ⟨?_, ?_, ?_, ?_⟩
  · apply mem_save_of_mem_saveProc ["vp"] nproc outputPath path m pre suf iproc h
    simp [saveProc]
  · apply mem_save_of_mem_saveProc ["vp"] nproc outputPath path m pre suf iproc h
    simp [saveProc]
  · apply mem_save_of_mem_saveProc ["vp"] nproc outputPath path m pre suf iproc h
    simp [saveProc]
  · intro arr p i n hmem
    rcases save_mem_cases ["vp"] nproc outputPath path m pre suf _ hmem with h1 | ⟨j, hj, hal⟩
    · exact absurd h1 (by simp)
    · simp [saveProc] at hal
      exact hal.2.2.2

/-- Claim C10: the naming of copied reference files is asymmetric: a vp or
vs file not in the active ParameterSet is copied under `pre ++ key ++ suf`,
while the constant-density rho file is copied under the bare name "rho",
ignoring the caller-supplied affixes; no other copy names occur. -/
theorem save_copy_name_asymmetry (params : List String) (nproc : Nat)
    (outputPath path : String) (m : PartitionedModel) (pre suf : String) (iproc : Nat)
    (h : iproc < nproc) :
    ("vp" ∉ params → SaveAction.copybin (outputPath ++ "/" ++ "model_init") path iproc
        (pre ++ "vp" ++ suf) ∈ save params nproc outputPath path m pre suf)
    ∧ ("vs" ∉ params → SaveAction.copybin (outputPath ++ "/" ++ "model_init") path iproc
        (pre ++ "vs" ++ suf) ∈ save params nproc outputPath path m pre suf)
    ∧ ("rho" ∉ params → SaveAction.copybin (outputPath ++ "/" ++ "model_init") path iproc
        "rho" ∈ save params nproc outputPath path m pre suf)
    ∧ (∀ s d i n, SaveAction.copybin s d i n ∈ save params nproc outputPath path m pre suf →
        n = pre ++ "vp" ++ suf ∨ n = pre ++ "vs" ++ suf ∨ n = "rho") := by
  refine ⟨?_, ?_, ?_, ?_⟩
  · intro hvp
    apply mem_save_of_mem_saveProc params nproc outputPath path m pre suf iproc h
    simp [saveProc, hvp]
  · intro hvs
    apply mem_save_of_mem_saveProc params nproc outputPath path m pre suf iproc h
    simp [saveProc, hvs]
  · intro hrho
    apply mem_save_of_mem_saveProc params nproc outputPath path m pre suf iproc h
    simp [saveProc, hrho]
  · intro s d i n hmem
    rcases save_mem_cases params nproc outputPath path m pre suf _ hmem with h1 | ⟨j, hj, hal⟩
    · exact absurd h1 (by simp)
    · unfold saveProc at hal
      rcases List.mem_append.mp hal with h2 | h2
      · rcases List.mem_map.mp h2 with ⟨key, hkey, heq⟩
        by_cases hin : key ∈ params
        · rw [if_pos hin] at heq
          exact absurd heq (by simp)
        · rw [if_neg hin] at heq
          simp only [SaveAction.copybin.injEq] at heq
          have hn : n = pre ++ key ++ suf := heq.2.2.2.symm
          rcases List.mem_cons.mp hkey with hk | hk
          · left; rw [hn, hk]
          · right; left
            rcases List.mem_cons.mp hk with hk2 | hk2
            · rw [hn, hk2]
            · simp at hk2
      · by_cases hin : "rho" ∈ params
        · rw [if_pos hin] at h2
          simp at h2
        · rw [if_neg hin] at h2
          simp at h2
          right; right
          exact h2.2.2.2

end Seisflows

namespace Seisflows

/-- Witness for Claim C5 at a concrete one-processor acoustic model. -/
theorem save_acoustic_copies_witness :
    (0 : Nat) < 1
      ∧ SaveAction.copybin ("out" ++ "/" ++ "model_init") "dst" 0 ("" ++ "vs" ++ "")
          ∈ save ["vp"] 1 "out" "dst" [("vp", [[9]])] "" "" :=
  ⟨by decide, (save_acoustic_copies 1 "out" "dst" [("vp", [[9]])] "" "" 0 (by decide)).2.1⟩

/-- Witness for Claim C10: with nonempty affixes "m1"/"_x", the rho copy
still uses the bare name "rho". -/
theorem save_copy_name_asymmetry_witness :
    (0 : Nat) < 1
      ∧ SaveAction.copybin ("out" ++ "/" ++ "model_init") "dst" 0 "rho"
          ∈ save ["vp", "vs"] 1 "out" "dst" [] "m1" "_x" :=
  ⟨by decide,
    (save_copy_name_asymmetry ["vp", "vs"] 1 "out" "dst" [] "m1" "_x" 0 (by decide)).2.2.1
      (by decide)⟩

/-- Counterexample to Claim C6 as stated: with `minval = -inf` and a
finite `maxval`, clip is still a no-op (the guard is
`minval == -inf or maxval == inf`), although only one of the two bounds is
infinite, so clipping from above alone never invokes the tool. -/
theorem clip_one_sided_noop_cx :
    clip ["vp", "vs"] true "kernels" FloatV.negInf (FloatV.finite 5) = Except.ok []
      ∧ FloatV.finite 5 ≠ FloatV.posInf :=
  ⟨rfl, by decide⟩

/-- Claim C6, corrected: on an existing path, clip is a no-op exactly when
AT LEAST ONE bound is infinite; when both bounds are finite, its external
tool invocations are exactly one `xclip_sem` run per parameter with the given
bounds, and it creates the `_noclip` sibling, relocates every parameter's
input files there, and strips the tool's `_clip` suffix. -/
theorem clip_noop_iff (params : List String) (path : String) (minval maxval : FloatV) :
    (clip params true path minval maxval = Except.ok []
        ↔ (minval = FloatV.negInf ∨ maxval = FloatV.posInf))
      ∧ (∀ l, clip params true path minval maxval = Except.ok l →
          minval ≠ FloatV.negInf → maxval ≠ FloatV.posInf →
            l.filter isRunClip = params.map (fun name =>
                ClipAction.runClipTool minval maxval (name ++ "_kernel") path)
              ∧ ClipAction.mkdirA (path ++ "_noclip") ∈ l
              ∧ (∀ name ∈ params, ClipAction.mvKernels name path (path ++ "_noclip") ∈ l)
              ∧ ClipAction.renameStrip "_clip" path ∈ l) := by
  constructor
  · by_cases hc : minval = FloatV.negInf ∨ maxval = FloatV.posInf
    · simp [clip, hc]
    · simp [clip, hc]
  · intro l hok h1 h2
    have hc : ¬ (minval = FloatV.negInf ∨ maxval = FloatV.posInf) := by tauto
    simp only [clip, Bool.not_true, if_neg, reduceIte, hc] at hok
    have hl : l = (params.map (fun name =>
          ClipAction.runClipTool minval maxval (name ++ "_kernel") path))
        ++ [ClipAction.mkdirA (path ++ "_noclip")]
        ++ (params.map (fun name => ClipAction.mvKernels name path (path ++ "_noclip")))
        ++ [ClipAction.renameStrip "_clip" path] := by
      cases hok
      rfl
    subst hl
    refine ⟨?_, ?_, ?_, ?_⟩
    · simp [List.filter_append, List.filter_map, isRunClip, Function.comp_def]
    · simp
    · intro name hname
      simp only [List.mem_append]
      left; right
      exact List.mem_map_of_mem _ hname
    · simp

/-- Witness for the corrected Claim C6 with two finite bounds. -/
theorem clip_noop_iff_witness :
    ClipAction.mkdirA ("kern" ++ "_noclip")
      ∈ [ClipAction.runClipTool (FloatV.finite 1) (FloatV.finite 2) ("vp" ++ "_kernel") "kern",
         ClipAction.mkdirA ("kern" ++ "_noclip"),
         ClipAction.mvKernels "vp" "kern" ("kern" ++ "_noclip"),
         ClipAction.renameStrip "_clip" "kern"] :=
  ((clip_noop_iff ["vp"] "kern" (FloatV.finite 1) (FloatV.finite 2)).2
    [ClipAction.runClipTool (FloatV.finite 1) (FloatV.finite 2) ("vp" ++ "_kernel") "kern",
     ClipAction.mkdirA ("kern" ++ "_noclip"),
     ClipAction.mvKernels "vp" "kern" ("kern" ++ "_noclip"),
     ClipAction.renameStrip "_clip" "kern"]
    (by decide) (by decide) (by decide)).2.1

/-- Claim C7: setup fails with the missing-required-input configuration
error when neither a data archive nor a true model is configured, and exactly
one acquisition path is taken: observed data are copied from the archive when
a data path is configured, otherwise a generate-data solver pass runs against
the true model. -/
theorem setup_data_selection (dataPath modelTrue modelInit : Option String) (source : String) :
    (dataPath = none → modelTrue = none →
        setup dataPath modelTrue modelInit source = Except.error SetupError.missingRequiredInput)
      ∧ (∀ d, dataPath = some d →
          ∀ l, setup dataPath modelTrue modelInit source = Except.ok l →
            SetupAction.copyObservedData d source ∈ l
              ∧ ∀ mt, SetupAction.generateDataA mt ∉ l)
      ∧ (dataPath = none → ∀ mt, modelTrue = some mt →
          ∀ l, setup dataPath modelTrue modelInit source = Except.ok l →
            SetupAction.generateDataA mt ∈ l
              ∧ ∀ a s, SetupAction.copyObservedData a s ∉ l) := by
  refine ⟨?_, ?_, ?_⟩
  · intro hd hmt
    subst hd; subst hmt
    simp [setup, getPath]
  · intro d hd l hok
    subst hd
    cases modelInit with
    | none => simp [setup, getPath] at hok
    | some mi =>
      simp only [setup, getPath] at hok
      cases hok
      constructor
      · simp
      · intro mt
        simp
  · intro hd mt hmt l hok
    subst hd; subst hmt
    cases modelInit with
    | none => simp [setup, getPath] at hok
    | some mi =>
      simp only [setup, getPath] at hok
      cases hok
      constructor
      · simp
      · intro a s
        simp

/-- Witness for Claim C7: with neither path configured setup returns the
missing-required-input error. -/
theorem setup_data_selection_witness :
    setup none none (some "mi") "S001" = Except.error SetupError.missingRequiredInput :=
  (setup_data_selection none none (some "mi") "S001").1 rfl rfl

/-- Claim C8: only worker 0 seeds the optimizer's initial vector, and
seeding is idempotent: a worker with non-zero index performs no io action at
all, an existing `m_new` file is never overwritten, and worker 0 writes the
merged initial model only when the seed file is absent. -/
theorem seed_worker0_idempotent (node : Nat)
    (optimize pathOptSet modelInitExists mNewExists : Bool) (v : Arr) :
    (node ≠ 0 →
        initIoMachinery node optimize pathOptSet modelInitExists mNewExists v = Except.ok [])
      ∧ (mNewExists = true →
          ∀ l, initIoMachinery node optimize pathOptSet modelInitExists mNewExists v
              = Except.ok l →
            ∀ w, IoAction.saveMNew w ∉ l)
      ∧ (node = 0 → optimize = true → pathOptSet = true → modelInitExists = true →
          mNewExists = false →
          initIoMachinery node optimize pathOptSet modelInitExists mNewExists v
            = Except.ok [IoAction.loadModelInit, IoAction.saveMNew v]) := by
  refine ⟨?_, ?_, ?_⟩
  · intro hn
    simp [initIoMachinery, hn]
  · intro hm l hok w
    by_cases hn : node = 0
    · subst hn
      cases optimize with
      | false =>
        simp [initIoMachinery] at hok
        subst hok
        simp
      | true =>
        cases pathOptSet with
        | false => simp [initIoMachinery] at hok
        | true =>
          cases modelInitExists with
          | false => simp [initIoMachinery] at hok
          | true =>
            subst hm
            simp [initIoMachinery] at hok
            subst hok
            simp
    · simp [initIoMachinery, hn] at hok
      subst hok
      simp
  · intro hn ho hp hmi hm
    subst hn; subst ho; subst hp; subst hmi; subst hm
    simp [initIoMachinery]

/-- Witness for Claim C8: worker 1 performs no io action. -/
theorem seed_worker0_idempotent_witness :
    (1 : Nat) ≠ 0
      ∧ initIoMachinery 1 true true true true [3] = Except.ok [] :=
  ⟨by decide, (seed_worker0_idempotent 1 true true true true [3]).1 (by decide)⟩

/-- Claim C9: importing a candidate model writes the min/max diagnostic
report exactly for worker 0, and apart from that report every worker performs
the identical load-then-save action sequence. -/
theorem import_model_stats_worker0 (node nproc : Nat) (path dbPath : String) :
    (LoadAction.writeMinmax (path ++ "/" ++ "model") ∈ import_model node nproc path dbPath
        ↔ node = 0)
      ∧ (import_model node nproc path dbPath).filter (fun a => ! isMinmaxWrite a)
          = (import_model 0 nproc path dbPath).filter (fun a => ! isMinmaxWrite a) := by
  by_cases h : node = 0
  · subst h
    refine ⟨⟨fun _ => rfl, fun _ => ?_⟩, rfl⟩
    simp [import_model, load]
  · refine ⟨⟨fun hmem => ?_, fun he => absurd he h⟩, ?_⟩
    · simp [import_model, load, h] at hmem
    · simp [import_model, load, h, List.filter_append, List.filter_map,
        isMinmaxWrite, Function.comp_def]

end Seisflows
